import Mathlib

/-!
Shallow embedding of the double-page filename detection and renaming logic
of `src/double_page_fixing.py` (class `ArchiveHandler`).

Filenames are modelled as `List Char`.  The two compiled regular
expressions of `ArchiveHandler.__init__`,

  connected_number_pattern : a separator, three digits, a separator,
    three digits, a dot and a case-insensitive image extension;
  double_number_pattern : a separator, four digits, a dot and a
    case-insensitive image extension;

are modelled by matchers (`matchConnectedAt`, `matchDoubleAt`) that try
the pattern at the head of a list, and Python's `re.search` (leftmost
occurrence) is modelled by `searchFrom`, which scans positions left to
right.  A digit is an ASCII digit and case-insensitivity is ASCII
lower-casing, as in the source's ASCII inputs.
-/

namespace ComicClean

/-- The separator class of both patterns: one of the characters
hyphen, plus, ampersand. -/
def isSep (c : Char) : Bool := c == '-' || c == '+' || c == '&'

/-- ASCII lower-casing of a character list, modelling the IGNORECASE
flag of the compiled patterns. -/
def lower (l : List Char) : List Char := l.map Char.toLower

/-- Whether a list starts (case-insensitively) with one of the image
extension words of the patterns: jpg, jpeg or png. -/
def isExtStart (l : List Char) : Bool :=
  List.isPrefixOf ['j', 'p', 'g'] (lower l) ||
  List.isPrefixOf ['j', 'p', 'e', 'g'] (lower l) ||
  List.isPrefixOf ['p', 'n', 'g'] (lower l)

/-- `connected_number_pattern` tried at the head of the list: a
separator, two three-digit groups separated by a separator, a dot and
an image extension.  Returns the two captured digit groups. -/
def matchConnectedAt : List Char → Option (List Char × List Char)
  | c0 :: a1 :: a2 :: a3 :: c4 :: b1 :: b2 :: b3 :: d :: rest =>
    if isSep c0 && a1.isDigit && a2.isDigit && a3.isDigit &&
       isSep c4 && b1.isDigit && b2.isDigit && b3.isDigit &&
       d == '.' && isExtStart rest then
      some ([a1, a2, a3], [b1, b2, b3])
    else none
  | _ => none

/-- `double_number_pattern` tried at the head of the list: a separator,
four digits captured as two two-digit groups, a dot and an image
extension. -/
def matchDoubleAt : List Char → Option (List Char × List Char)
  | c0 :: a1 :: a2 :: b1 :: b2 :: d :: rest =>
    if isSep c0 && a1.isDigit && a2.isDigit && b1.isDigit && b2.isDigit &&
       d == '.' && isExtStart rest then
      some ([a1, a2], [b1, b2])
    else none
  | _ => none

/-- `re.search` for a matcher `m`: the leftmost position where `m`
matches, together with the captured groups. -/
def searchFrom (m : List Char → Option (List Char × List Char)) :
    List Char → Option (Nat × List Char × List Char)
  | [] => none
  | c :: t =>
    match m (c :: t) with
    | some (a, b) => some (0, a, b)
    | none => (searchFrom m t).map fun r => (r.1 + 1, r.2.1, r.2.2)

/-- `ArchiveHandler.find_double_numbers`: try the connected-number
pattern first; if it matches, the result is everything before the match
start together with the two captured groups; otherwise try the
double-number pattern the same way; otherwise no match. -/
def find_double_numbers (filename : List Char) :
    Option (List Char × List Char × List Char) :=
  match searchFrom matchConnectedAt filename with
  | some (i, a, b) => some (filename.take i, a, b)
  | none =>
    match searchFrom matchDoubleAt filename with
    | some (i, a, b) => some (filename.take i, a, b)
    | none => none

/-- The extension extraction of `ArchiveHandler.suggest_new_name`: the
end-anchored search for a dot followed by jpg, jpeg or png
(case-insensitively), returning the matched text with its original
case, or the empty list when the filename does not end in an image
extension. -/
def trailingExt (filename : List Char) : List Char :=
  if List.isSuffixOf ['.', 'j', 'p', 'e', 'g'] (lower filename) then
    filename.drop (filename.length - 5)
  else if List.isSuffixOf ['.', 'j', 'p', 'g'] (lower filename) ||
          List.isSuffixOf ['.', 'p', 'n', 'g'] (lower filename) then
    filename.drop (filename.length - 4)
  else []

/-- `ArchiveHandler.suggest_new_name`: replace every hyphen of the
prefix by an underscore, then join prefix, first number and second
number with an underscore and a hyphen, and append the end-anchored
extension of the original filename. -/
def suggest_new_name (filename : List Char)
    (numberMatch : List Char × List Char × List Char) : List Char :=
  let pfx := numberMatch.1
  let firstNum := numberMatch.2.1
  let secondNum := numberMatch.2.2
  let originalExt := trailingExt filename
  let modifiedPrefix := pfx.map fun c => if c == '-' then '_' else c
  modifiedPrefix ++ '_' :: (firstNum ++ '-' :: (secondNum ++ originalExt))

/-- Spec-side definition, following the spec's words for
`suggest_rename`: normalize replaces every hyphen in the prefix with an
underscore and leaves every other character unchanged. -/
def specNormalize (pfx : List Char) : List Char :=
  pfx.map fun c => if c == '-' then '_' else c

/-- Spec-side definition, following the spec's words: the original
trailing extension text of the filename with its original case
preserved, i.e. the end-anchored case-insensitive occurrence of .jpg,
.jpeg or .png, or empty when the filename does not end in one. -/
def specTrailingExtension (filename : List Char) : List Char :=
  if List.isSuffixOf ['.', 'j', 'p', 'e', 'g'] (lower filename) then
    filename.drop (filename.length - 5)
  else if List.isSuffixOf ['.', 'j', 'p', 'g'] (lower filename) ||
          List.isSuffixOf ['.', 'p', 'n', 'g'] (lower filename) then
    filename.drop (filename.length - 4)
  else []

/-- Whether the filename ends (case-insensitively) in one of the image
extensions handled by `suggest_new_name`. -/
def endsWithImageExt (filename : List Char) : Bool :=
  List.isSuffixOf ['.', 'j', 'p', 'e', 'g'] (lower filename) ||
  List.isSuffixOf ['.', 'j', 'p', 'g'] (lower filename) ||
  List.isSuffixOf ['.', 'p', 'n', 'g'] (lower filename)

/-- Whether the list contains a dot immediately followed by an image
extension word (a case-insensitive jpg, jpeg or png). -/
def hasDotExt : List Char → Bool
  | [] => false
  | c :: t => (c == '.' && isExtStart t) || hasDotExt t

/-- Whether the list contains a separator immediately followed by an
ASCII digit that occurs before a dot-plus-image-extension occurrence:
a digit sequence adjacent to a separator before the extension. -/
def sepDigitThenExt : List Char → Bool
  | c1 :: c2 :: t => (isSep c1 && c2.isDigit && hasDotExt (c2 :: t)) ||
      sepDigitThenExt (c2 :: t)
  | _ => false

theorem searchFrom_some (m : List Char → Option (List Char × List Char)) :
    ∀ (l : List Char) (i : Nat) (a b : List Char),
      searchFrom m l = some (i, a, b) →
      m (l.drop i) = some (a, b) ∧ ∀ j, j < i → m (l.drop j) = none := by
  intro l
  induction l with
  | nil => intro i a b h; simp [searchFrom] at h
  | cons c t ih =>
    intro i a b h
    rcases hm : m (c :: t) with _ | ⟨a0, b0⟩
    · rw [searchFrom, hm] at h
      simp only [Option.map_eq_some', Prod.mk.injEq] at h
      obtain ⟨⟨i', a', b'⟩, hr, hi, ha, hb⟩ := h
      obtain ⟨hma, hnone⟩ := ih i' a' b' hr
      subst hi ha hb
      refine ⟨hma, ?_⟩
      intro j hj
      cases j with
      | zero => exact hm
      | succ j' => exact hnone j' (Nat.lt_of_succ_lt_succ hj)
    · rw [searchFrom, hm] at h
      simp only [Option.some.injEq, Prod.mk.injEq] at h
      obtain ⟨hi, ha, hb⟩ := h
      subst hi ha hb
      exact ⟨hm, fun j hj => absurd hj (Nat.not_lt_zero j)⟩

theorem searchFrom_eq_some (m : List Char → Option (List Char × List Char))
    (hm0 : m [] = none) :
    ∀ (l : List Char) (i : Nat) (a b : List Char),
      m (l.drop i) = some (a, b) →
      (∀ j, j < i → m (l.drop j) = none) →
      searchFrom m l = some (i, a, b) := by
  intro l
  induction l with
  | nil =>
    intro i a b hma _
    rw [List.drop_nil, hm0] at hma
    exact absurd hma (by simp)
  | cons c t ih =>
    intro i a b hma hnone
    cases i with
    | zero =>
      rw [List.drop_zero] at hma
      simp [searchFrom, hma]
    | succ i' =>
      have h0 : m (c :: t) = none := hnone 0 (Nat.succ_pos i')
      have ht : searchFrom m t = some (i', a, b) := by
        apply ih
        · simpa using hma
        · intro j hj
          simpa using hnone (j + 1) (Nat.succ_lt_succ hj)
      rw [searchFrom, h0, ht]
      rfl

theorem matchConnectedAt_cons (c0 a1 a2 a3 c4 b1 b2 b3 : Char) (rest : List Char)
    (hc0 : isSep c0 = true) (ha1 : a1.isDigit = true) (ha2 : a2.isDigit = true)
    (ha3 : a3.isDigit = true) (hc4 : isSep c4 = true) (hb1 : b1.isDigit = true)
    (hb2 : b2.isDigit = true) (hb3 : b3.isDigit = true)
    (hext : isExtStart rest = true) :
    matchConnectedAt (c0 :: a1 :: a2 :: a3 :: c4 :: b1 :: b2 :: b3 :: '.' :: rest) =
      some ([a1, a2, a3], [b1, b2, b3]) := by
  simp [matchConnectedAt, hc0, ha1, ha2, ha3, hc4, hb1, hb2, hb3, hext]

theorem matchDoubleAt_cons (c0 a1 a2 b1 b2 : Char) (rest : List Char)
    (hc0 : isSep c0 = true) (ha1 : a1.isDigit = true) (ha2 : a2.isDigit = true)
    (hb1 : b1.isDigit = true) (hb2 : b2.isDigit = true)
    (hext : isExtStart rest = true) :
    matchDoubleAt (c0 :: a1 :: a2 :: b1 :: b2 :: '.' :: rest) =
      some ([a1, a2], [b1, b2]) := by
  simp [matchDoubleAt, hc0, ha1, ha2, hb1, hb2, hext]

theorem matchConnectedAt_some (u a b : List Char)
    (h : matchConnectedAt u = some (a, b)) :
    ∃ c0 a1 a2 a3 c4 b1 b2 b3 rest,
      u = c0 :: a1 :: a2 :: a3 :: c4 :: b1 :: b2 :: b3 :: '.' :: rest ∧
      a = [a1, a2, a3] ∧ b = [b1, b2, b3] ∧
      isSep c0 = true ∧ a1.isDigit = true ∧ a2.isDigit = true ∧
      a3.isDigit = true ∧ isSep c4 = true ∧ b1.isDigit = true ∧
      b2.isDigit = true ∧ b3.isDigit = true ∧ isExtStart rest = true := by
  rcases u with _ | ⟨c0, u⟩; · simp [matchConnectedAt] at h
  rcases u with _ | ⟨a1, u⟩; · simp [matchConnectedAt] at h
  rcases u with _ | ⟨a2, u⟩; · simp [matchConnectedAt] at h
  rcases u with _ | ⟨a3, u⟩; · simp [matchConnectedAt] at h
  rcases u with _ | ⟨c4, u⟩; · simp [matchConnectedAt] at h
  rcases u with _ | ⟨b1, u⟩; · simp [matchConnectedAt] at h
  rcases u with _ | ⟨b2, u⟩; · simp [matchConnectedAt] at h
  rcases u with _ | ⟨b3, u⟩; · simp [matchConnectedAt] at h
  rcases u with _ | ⟨d, rest⟩; · simp [matchConnectedAt] at h
  rw [matchConnectedAt] at h
  split at h
  case isTrue hcond =>
    simp only [Bool.and_eq_true, beq_iff_eq] at hcond
    obtain ⟨⟨⟨⟨⟨⟨⟨⟨⟨hc0, ha1⟩, ha2⟩, ha3⟩, hc4⟩, hb1⟩, hb2⟩, hb3⟩, hd⟩, hext⟩ := hcond
    simp only [Option.some.injEq, Prod.mk.injEq] at h
    obtain ⟨ha, hb⟩ := h
    subst hd
    exact ⟨c0, a1, a2, a3, c4, b1, b2, b3, rest, rfl, ha.symm, hb.symm,
      hc0, ha1, ha2, ha3, hc4, hb1, hb2, hb3, hext⟩
  case isFalse => exact Option.noConfusion h

theorem matchDoubleAt_some (u a b : List Char)
    (h : matchDoubleAt u = some (a, b)) :
    ∃ c0 a1 a2 b1 b2 rest,
      u = c0 :: a1 :: a2 :: b1 :: b2 :: '.' :: rest ∧
      a = [a1, a2] ∧ b = [b1, b2] ∧
      isSep c0 = true ∧ a1.isDigit = true ∧ a2.isDigit = true ∧
      b1.isDigit = true ∧ b2.isDigit = true ∧ isExtStart rest = true := by
  rcases u with _ | ⟨c0, u⟩; · simp [matchDoubleAt] at h
  rcases u with _ | ⟨a1, u⟩; · simp [matchDoubleAt] at h
  rcases u with _ | ⟨a2, u⟩; · simp [matchDoubleAt] at h
  rcases u with _ | ⟨b1, u⟩; · simp [matchDoubleAt] at h
  rcases u with _ | ⟨b2, u⟩; · simp [matchDoubleAt] at h
  rcases u with _ | ⟨d, rest⟩; · simp [matchDoubleAt] at h
  rw [matchDoubleAt] at h
  split at h
  case isTrue hcond =>
    simp only [Bool.and_eq_true, beq_iff_eq] at hcond
    obtain ⟨⟨⟨⟨⟨⟨hc0, ha1⟩, ha2⟩, hb1⟩, hb2⟩, hd⟩, hext⟩ := hcond
    simp only [Option.some.injEq, Prod.mk.injEq] at h
    obtain ⟨ha, hb⟩ := h
    subst hd
    exact ⟨c0, a1, a2, b1, b2, rest, rfl, ha.symm, hb.symm,
      hc0, ha1, ha2, hb1, hb2, hext⟩
  case isFalse => exact Option.noConfusion h

theorem isPrefixOf_append_right (p : List Char) :
    ∀ (u w : List Char), List.isPrefixOf p u = true →
      List.isPrefixOf p (u ++ w) = true := by
  induction p with
  | nil => intro u w _; simp [List.isPrefixOf]
  | cons x p ih =>
    intro u w h
    cases u with
    | nil => simp [List.isPrefixOf] at h
    | cons y u =>
      simp only [List.isPrefixOf, Bool.and_eq_true] at h
      simp only [List.cons_append, List.isPrefixOf, Bool.and_eq_true]
      exact ⟨h.1, ih u w h.2⟩

theorem take_length_of_isPrefixOf (p : List Char) :
    ∀ (u : List Char), List.isPrefixOf p u = true → u.take p.length = p := by
  induction p with
  | nil => intro u _; simp
  | cons x p ih =>
    intro u h
    cases u with
    | nil => simp [List.isPrefixOf] at h
    | cons y u =>
      simp only [List.isPrefixOf, Bool.and_eq_true, beq_iff_eq] at h
      simp [List.take_succ_cons, h.1.symm, ih u h.2]

theorem isExtStart_append (r w : List Char) (h : isExtStart r = true) :
    isExtStart (r ++ w) = true := by
  simp only [isExtStart, lower, List.map_append, Bool.or_eq_true] at h ⊢
  rcases h with (h | h) | h
  · exact Or.inl (Or.inl (isPrefixOf_append_right _ _ _ h))
  · exact Or.inl (Or.inr (isPrefixOf_append_right _ _ _ h))
  · exact Or.inr (isPrefixOf_append_right _ _ _ h)

theorem matchConnectedAt_append (u w a b : List Char)
    (h : matchConnectedAt u = some (a, b)) :
    matchConnectedAt (u ++ w) = some (a, b) := by
  obtain ⟨c0, a1, a2, a3, c4, b1, b2, b3, rest, hu, ha, hb, hc0, ha1, ha2, ha3,
    hc4, hb1, hb2, hb3, hext⟩ := matchConnectedAt_some u a b h
  subst hu ha hb
  simpa using matchConnectedAt_cons c0 a1 a2 a3 c4 b1 b2 b3 (rest ++ w)
    hc0 ha1 ha2 ha3 hc4 hb1 hb2 hb3 (isExtStart_append rest w hext)

theorem matchDoubleAt_append (u w a b : List Char)
    (h : matchDoubleAt u = some (a, b)) :
    matchDoubleAt (u ++ w) = some (a, b) := by
  obtain ⟨c0, a1, a2, b1, b2, rest, hu, ha, hb, hc0, ha1, ha2, hb1, hb2, hext⟩ :=
    matchDoubleAt_some u a b h
  subst hu ha hb
  simpa using matchDoubleAt_cons c0 a1 a2 b1 b2 (rest ++ w)
    hc0 ha1 ha2 hb1 hb2 (isExtStart_append rest w hext)

theorem find_double_numbers_some (fn p a b : List Char)
    (h : find_double_numbers fn = some (p, a, b)) :
    (∃ i, searchFrom matchConnectedAt fn = some (i, a, b) ∧ p = fn.take i) ∨
    (searchFrom matchConnectedAt fn = none ∧
      ∃ i, searchFrom matchDoubleAt fn = some (i, a, b) ∧ p = fn.take i) := by
  rw [find_double_numbers] at h
  rcases hc : searchFrom matchConnectedAt fn with _ | ⟨i, a0, b0⟩
  · rw [hc] at h
    rcases hd : searchFrom matchDoubleAt fn with _ | ⟨i, a0, b0⟩
    · rw [hd] at h; exact Option.noConfusion h
    · rw [hd] at h
      simp only [Option.some.injEq, Prod.mk.injEq] at h
      obtain ⟨hp, ha, hb⟩ := h
      subst ha hb
      exact Or.inr ⟨rfl, i, rfl, hp.symm⟩
  · rw [hc] at h
    simp only [Option.some.injEq, Prod.mk.injEq] at h
    obtain ⟨hp, ha, hb⟩ := h
    subst ha hb
    exact Or.inl ⟨i, rfl, hp.symm⟩

/-- Length of the extension text consumed by a match: four characters
when the post-dot text starts (case-insensitively) with jpeg, otherwise
three (jpg or png). -/
def extLen (v : List Char) : Nat :=
  if List.isPrefixOf ['j', 'p', 'e', 'g'] (lower v) then 4 else 3

theorem isExtStart_take_extLen (v : List Char) (h : isExtStart v = true) :
    isExtStart (v.take (extLen v)) = true := by
  by_cases hjpeg : List.isPrefixOf ['j', 'p', 'e', 'g'] (lower v) = true
  · rw [extLen, if_pos hjpeg]
    have h4 : lower (v.take 4) = ['j', 'p', 'e', 'g'] := by
      rw [lower, List.map_take]
      simpa using take_length_of_isPrefixOf _ _ hjpeg
    rw [isExtStart, h4]
    decide
  · rw [extLen, if_neg hjpeg]
    rw [isExtStart, Bool.or_eq_true, Bool.or_eq_true] at h
    rcases h with (h | h) | h
    · have h3 : lower (v.take 3) = ['j', 'p', 'g'] := by
        rw [lower, List.map_take]
        simpa using take_length_of_isPrefixOf _ _ h
      rw [isExtStart, h3]
      decide
    · exact absurd h hjpeg
    · have h3 : lower (v.take 3) = ['p', 'n', 'g'] := by
        rw [lower, List.map_take]
        simpa using take_length_of_isPrefixOf _ _ h
      rw [isExtStart, h3]
      decide

theorem hasDotExt_cons (c : Char) (t : List Char) (h : hasDotExt t = true) :
    hasDotExt (c :: t) = true := by
  rw [hasDotExt]
  simp [h]

theorem hasDotExt_dotCons (rest : List Char) (h : isExtStart rest = true) :
    hasDotExt ('.' :: rest) = true := by
  rw [hasDotExt]
  simp [h]

theorem sepDigitThenExt_of_drop (c0 c1 : Char) (t : List Char)
    (hsep : isSep c0 = true) (hdig : c1.isDigit = true)
    (hde : hasDotExt (c1 :: t) = true) :
    ∀ (l : List Char) (i : Nat), l.drop i = c0 :: c1 :: t →
      sepDigitThenExt l = true := by
  intro l
  induction l with
  | nil => intro i h; simp at h
  | cons c t' ih =>
    intro i h
    cases i with
    | zero =>
      rw [List.drop_zero] at h
      injection h with h1 h2
      subst h1
      subst h2
      rw [sepDigitThenExt]
      simp [hsep, hdig, hde]
    | succ i' =>
      have ht := ih i' (by simpa using h)
      cases t' with
      | nil => simp [sepDigitThenExt] at ht
      | cons c2 t'' =>
        rw [sepDigitThenExt]
        simp [ht]

theorem find_some_sepDigitThenExt (fn p a b : List Char)
    (h : find_double_numbers fn = some (p, a, b)) :
    sepDigitThenExt fn = true := by
  rcases find_double_numbers_some fn p a b h with ⟨i, hs, _⟩ | ⟨_, i, hs, _⟩
  · obtain ⟨hma, _⟩ := searchFrom_some matchConnectedAt fn i a b hs
    obtain ⟨c0, a1, a2, a3, c4, b1, b2, b3, rest, hu, _, _, hc0, ha1, _, _, _,
      _, _, _, hext⟩ := matchConnectedAt_some _ a b hma
    refine sepDigitThenExt_of_drop c0 a1 _ hc0 ha1 ?_ fn i hu
    exact hasDotExt_cons _ _ (hasDotExt_cons _ _ (hasDotExt_cons _ _
      (hasDotExt_cons _ _ (hasDotExt_cons _ _ (hasDotExt_cons _ _
      (hasDotExt_cons _ _ (hasDotExt_dotCons rest hext)))))))
  · obtain ⟨hma, _⟩ := searchFrom_some matchDoubleAt fn i a b hs
    obtain ⟨c0, a1, a2, b1, b2, rest, hu, _, _, hc0, ha1, _, _, _, hext⟩ :=
      matchDoubleAt_some _ a b hma
    refine sepDigitThenExt_of_drop c0 a1 _ hc0 ha1 ?_ fn i hu
    exact hasDotExt_cons _ _ (hasDotExt_cons _ _ (hasDotExt_cons _ _
      (hasDotExt_cons _ _ (hasDotExt_dotCons rest hext))))

/-- Claim C1: detection tries the connected-numbers rule before the
concatenated-digits rule: whenever the connected-number pattern has a
match, its prefix and two digit groups are returned exclusively, and
the double-number pattern determines the result only when the connected
search finds no match. -/
theorem detect_priority_rule1_first (fn : List Char) :
    (∀ i a b, searchFrom matchConnectedAt fn = some (i, a, b) →
      find_double_numbers fn = some (fn.take i, a, b)) ∧
    (searchFrom matchConnectedAt fn = none →
      find_double_numbers fn =
        (searchFrom matchDoubleAt fn).map fun r => (fn.take r.1, r.2.1, r.2.2)) := by
  constructor
  · intro i a b h
    rw [find_double_numbers, h]
  · intro h
    rw [find_double_numbers, h]
    rcases hd : searchFrom matchDoubleAt fn with _ | ⟨i, a, b⟩ <;> simp

/-- Witness for C1 on a filename both rules match: the connected rule's
result is returned. -/
theorem detect_priority_rule1_first_witness :
    find_double_numbers ("b-111+222.jpg&3344.png".toList) =
      some ("b".toList, "111".toList, "222".toList) ∧
    searchFrom matchDoubleAt ("b-111+222.jpg&3344.png".toList) =
      some (13, "33".toList, "44".toList) := by
  constructor
  · rw [(detect_priority_rule1_first ("b-111+222.jpg&3344.png".toList)).1 1
      ("111".toList) ("222".toList) (by decide)]
    decide
  · decide

/-- Claim C2: for every filename and every match produced by detection,
the suggested name is exactly normalize(prefix), an underscore, the
first number, a hyphen, the second number and the trailing extension of
the original filename with its case preserved. -/
theorem suggest_rename_formula (fn p a b : List Char)
    (h : find_double_numbers fn = some (p, a, b)) :
    suggest_new_name fn (p, a, b) =
      specNormalize p ++ '_' :: (a ++ '-' :: (b ++ specTrailingExtension fn)) := rfl

/-- Witness for C2 at GL54-033-034.jpg. -/
theorem suggest_rename_formula_witness :
    suggest_new_name ("GL54-033-034.jpg".toList)
      ("GL54".toList, "033".toList, "034".toList) =
      specNormalize ("GL54".toList) ++ '_' :: ("033".toList ++ '-' ::
        ("034".toList ++ specTrailingExtension ("GL54-033-034.jpg".toList))) :=
  suggest_rename_formula ("GL54-033-034.jpg".toList) ("GL54".toList)
    ("033".toList) ("034".toList) (by decide)

/-- Claim C3 counterexample: the connected rule matches three-digit
groups, yet a six-digit run after a separator (twice three) is not
matched at all, while a four-digit run is matched and split into
two-digit halves: the concatenated rule's run width is four, not twice
the connected rule's per-number width of three. -/
theorem rule_width_cex :
    find_double_numbers ("a-123+456.jpg".toList) =
      some ("a".toList, "123".toList, "456".toList) ∧
    find_double_numbers ("a-123456.jpg".toList) = none ∧
    find_double_numbers ("a-1234.jpg".toList) =
      some ("a".toList, "12".toList, "34".toList) := by
  refine ⟨by decide, by decide, by decide⟩

/-- Claim C3 amended: every detected match carries either two
three-digit groups (connected rule) or two two-digit groups
(concatenated rule); the two rules do not share one width. -/
theorem rule_width_dichotomy (fn p a b : List Char)
    (h : find_double_numbers fn = some (p, a, b)) :
    (a.length = 3 ∧ b.length = 3) ∨ (a.length = 2 ∧ b.length = 2) := by
  rcases find_double_numbers_some fn p a b h with ⟨i, hs, _⟩ | ⟨_, i, hs, _⟩
  · obtain ⟨hma, _⟩ := searchFrom_some matchConnectedAt fn i a b hs
    obtain ⟨c0, a1, a2, a3, c4, b1, b2, b3, rest, _, ha, hb, _⟩ :=
      matchConnectedAt_some _ a b hma
    subst ha hb
    exact Or.inl ⟨rfl, rfl⟩
  · obtain ⟨hma, _⟩ := searchFrom_some matchDoubleAt fn i a b hs
    obtain ⟨c0, a1, a2, b1, b2, rest, _, ha, hb, _⟩ :=
      matchDoubleAt_some _ a b hma
    subst ha hb
    exact Or.inr ⟨rfl, rfl⟩

/-- Witness for the amended C3 at x-5566.png. -/
theorem rule_width_dichotomy_witness :
    ("55".toList.length = 3 ∧ "66".toList.length = 3) ∨
    ("55".toList.length = 2 ∧ "66".toList.length = 2) :=
  rule_width_dichotomy ("x-5566.png".toList) ("x".toList)
    ("55".toList) ("66".toList) (by decide)

/-- Claim C5 counterexample: on Green Lantern 031-0809.JPG the detector
returns the numbers 08 and 09, but the suggested name keeps the spaces
of the prefix unchanged, so it is not Green_Lantern_031_08-09.JPG. -/
theorem green_lantern_spec_name_cex :
    find_double_numbers ("Green Lantern 031-0809.JPG".toList) =
      some ("Green Lantern 031".toList, "08".toList, "09".toList) ∧
    suggest_new_name ("Green Lantern 031-0809.JPG".toList)
      ("Green Lantern 031".toList, "08".toList, "09".toList) ≠
      "Green_Lantern_031_08-09.JPG".toList := by
  refine ⟨by decide, by decide⟩

/-- Claim C5 amended: on Green Lantern 031-0809.JPG the detector
returns the numbers 08 and 09, and the suggested name is
Green Lantern 031_08-09.JPG: spaces of the prefix are preserved and the
upper-case extension is preserved. -/
theorem green_lantern_example :
    find_double_numbers ("Green Lantern 031-0809.JPG".toList) =
      some ("Green Lantern 031".toList, "08".toList, "09".toList) ∧
    suggest_new_name ("Green Lantern 031-0809.JPG".toList)
      ("Green Lantern 031".toList, "08".toList, "09".toList) =
      "Green Lantern 031_08-09.JPG".toList := by
  refine ⟨by decide, by decide⟩

/-- Claim C6: on GL57-020+021.jpg the connected-numbers rule matches
with prefix GL57 and numbers 020 and 021, and the suggested name is
GL57_020-021.jpg. -/
theorem gl57_example :
    searchFrom matchConnectedAt ("GL57-020+021.jpg".toList) =
      some (4, "020".toList, "021".toList) ∧
    find_double_numbers ("GL57-020+021.jpg".toList) =
      some ("GL57".toList, "020".toList, "021".toList) ∧
    suggest_new_name ("GL57-020+021.jpg".toList)
      ("GL57".toList, "020".toList, "021".toList) = "GL57_020-021.jpg".toList := by
  refine ⟨by decide, by decide, by decide⟩

/-- Claim C7: detection is total and yields no match on any filename
containing no digit sequence adjacent to a separator before the
extension, i.e. in which no separator character immediately followed by
a digit occurs before a dot-plus-image-extension occurrence; this
covers filenames with no extension, with no digits, and with
separator-digit pairs only after the extension. -/
theorem no_sep_digit_before_ext_no_match (fn : List Char)
    (h : sepDigitThenExt fn = false) :
    find_double_numbers fn = none := by
  rcases hf : find_double_numbers fn with _ | ⟨p, a, b⟩
  · rfl
  · have hd := find_some_sepDigitThenExt fn p a b hf
    rw [h] at hd
    exact Bool.noConfusion hd

/-- Witness for C7 at cover.jpg (no separator-digit pair at all),
photo-123 (digits after a separator but no extension) and cover.jpg-12
(a separator-digit pair only after the extension). -/
theorem no_sep_digit_before_ext_no_match_witness :
    find_double_numbers ("cover.jpg".toList) = none ∧
    find_double_numbers ("photo-123".toList) = none ∧
    find_double_numbers ("cover.jpg-12".toList) = none :=
  ⟨no_sep_digit_before_ext_no_match ("cover.jpg".toList) (by decide),
   no_sep_digit_before_ext_no_match ("photo-123".toList) (by decide),
   no_sep_digit_before_ext_no_match ("cover.jpg-12".toList) (by decide)⟩

/-- Claim C10: when detection matched but the filename does not end in
an image extension (for example because text follows the matched
extension), the suggested name ends immediately after the second
number, with an empty extension. -/
theorem suggest_drops_extension (fn p a b : List Char)
    (h : find_double_numbers fn = some (p, a, b))
    (hext : endsWithImageExt fn = false) :
    suggest_new_name fn (p, a, b) = specNormalize p ++ '_' :: (a ++ '-' :: b) := by
  simp only [endsWithImageExt, Bool.or_eq_false_iff] at hext
  obtain ⟨⟨h1, h2⟩, h3⟩ := hext
  have ht : trailingExt fn = [] := by
    simp [trailingExt, h1, h2, h3]
  simp [suggest_new_name, specNormalize, ht]

/-- Witness for C10 at b-1234.jpgZ. -/
theorem suggest_drops_extension_witness :
    suggest_new_name ("b-1234.jpgZ".toList)
      ("b".toList, "12".toList, "34".toList) =
      specNormalize ("b".toList) ++ '_' :: ("12".toList ++ '-' :: "34".toList) :=
  suggest_drops_extension ("b-1234.jpgZ".toList) ("b".toList)
    ("12".toList) ("34".toList) (by decide) (by decide)

/-- Claim C9: every detected match decomposes the filename as the
prefix, a one-character separator, the first number, a join (a second
separator under the connected rule, empty under the concatenated rule),
the second number and a suffix beginning with the dot of the matched
extension; all components are literal segments of the filename, so
detection alters no characters. -/
theorem match_decomposition (fn p a b : List Char)
    (h : find_double_numbers fn = some (p, a, b)) :
    ∃ sep join suf,
      fn = p ++ sep ++ a ++ join ++ b ++ suf ∧
      (∃ c0, sep = [c0] ∧ isSep c0 = true) ∧
      (join = [] ∨ ∃ c4, join = [c4] ∧ isSep c4 = true) ∧
      ∃ r, suf = '.' :: r ∧ isExtStart r = true := by
  rcases find_double_numbers_some fn p a b h with ⟨i, hs, hp⟩ | ⟨_, i, hs, hp⟩
  · obtain ⟨hma, _⟩ := searchFrom_some matchConnectedAt fn i a b hs
    obtain ⟨c0, a1, a2, a3, c4, b1, b2, b3, rest, hu, ha, hb, hc0, _, _, _,
      hc4, _, _, _, hext⟩ := matchConnectedAt_some _ a b hma
    refine ⟨[c0], [c4], '.' :: rest, ?_, ⟨c0, rfl, hc0⟩,
      Or.inr ⟨c4, rfl, hc4⟩, rest, rfl, hext⟩
    subst hp ha hb
    conv_lhs => rw [← List.take_append_drop i fn]
    rw [hu]
    simp
  · obtain ⟨hma, _⟩ := searchFrom_some matchDoubleAt fn i a b hs
    obtain ⟨c0, a1, a2, b1, b2, rest, hu, ha, hb, hc0, _, _, _, _, hext⟩ :=
      matchDoubleAt_some _ a b hma
    refine ⟨[c0], [], '.' :: rest, ?_, ⟨c0, rfl, hc0⟩,
      Or.inl rfl, rest, rfl, hext⟩
    subst hp ha hb
    conv_lhs => rw [← List.take_append_drop i fn]
    rw [hu]
    simp

/-- Witness for C9 at 023-1213.jpg. -/
theorem match_decomposition_witness :
    ∃ sep join suf,
      "023-1213.jpg".toList =
        "023".toList ++ sep ++ "12".toList ++ join ++ "13".toList ++ suf ∧
      (∃ c0, sep = [c0] ∧ isSep c0 = true) ∧
      (join = [] ∨ ∃ c4, join = [c4] ∧ isSep c4 = true) ∧
      ∃ r, suf = '.' :: r ∧ isExtStart r = true :=
  match_decomposition ("023-1213.jpg".toList) ("023".toList)
    ("12".toList) ("13".toList) (by decide)

/-- Claim C4 counterexample: the detection patterns are not anchored to
the end of the filename: a filename carrying text after the matched
extension still yields a match. -/
theorem detect_not_end_anchored_cex :
    find_double_numbers ("a-020+021.jpgX".toList) =
      some ("a".toList, "020".toList, "021".toList) := by decide

/-- Claim C4 amended: in every detected match the separator, the digit
groups, the dot and the matched extension text sit contiguously right
after the prefix, but the match is not anchored to end-of-string: an
arbitrary remainder may follow the matched extension. -/
theorem match_contiguous_trailing_allowed (fn p a b : List Char)
    (h : find_double_numbers fn = some (p, a, b)) :
    ∃ c0 join e rem,
      fn = p ++ c0 :: (a ++ join ++ b ++ '.' :: (e ++ rem)) ∧
      isSep c0 = true ∧ isExtStart e = true ∧
      (join = [] ∨ ∃ c4, join = [c4] ∧ isSep c4 = true) := by
  rcases find_double_numbers_some fn p a b h with ⟨i, hs, hp⟩ | ⟨_, i, hs, hp⟩
  · obtain ⟨hma, _⟩ := searchFrom_some matchConnectedAt fn i a b hs
    obtain ⟨c0, a1, a2, a3, c4, b1, b2, b3, rest, hu, ha, hb, hc0, _, _, _,
      hc4, _, _, _, hext⟩ := matchConnectedAt_some _ a b hma
    refine ⟨c0, [c4], rest.take (extLen rest), rest.drop (extLen rest), ?_,
      hc0, isExtStart_take_extLen rest hext, Or.inr ⟨c4, rfl, hc4⟩⟩
    subst hp ha hb
    rw [List.take_append_drop (extLen rest) rest]
    conv_lhs => rw [← List.take_append_drop i fn]
    rw [hu]
    simp
  · obtain ⟨hma, _⟩ := searchFrom_some matchDoubleAt fn i a b hs
    obtain ⟨c0, a1, a2, b1, b2, rest, hu, ha, hb, hc0, _, _, _, _, hext⟩ :=
      matchDoubleAt_some _ a b hma
    refine ⟨c0, [], rest.take (extLen rest), rest.drop (extLen rest), ?_,
      hc0, isExtStart_take_extLen rest hext, Or.inl rfl⟩
    subst hp ha hb
    rw [List.take_append_drop (extLen rest) rest]
    conv_lhs => rw [← List.take_append_drop i fn]
    rw [hu]
    simp

/-- Witness for the amended C4 at q+777&888.jpegQQ, whose trailing QQ
follows the matched jpeg extension. -/
theorem match_contiguous_trailing_allowed_witness :
    ∃ c0 join e rem,
      "q+777&888.jpegQQ".toList =
        "q".toList ++ c0 :: ("777".toList ++ join ++ "888".toList ++
          '.' :: (e ++ rem)) ∧
      isSep c0 = true ∧ isExtStart e = true ∧
      (join = [] ∨ ∃ c4, join = [c4] ∧ isSep c4 = true) :=
  match_contiguous_trailing_allowed ("q+777&888.jpegQQ".toList) ("q".toList)
    ("777".toList) ("888".toList) (by decide)

/-- Claim C8: round-trip idempotence of the connected-numbers rule: if
the connected search matches a filename at position i with groups a and
b, then rebuilding the name from the prefix, the original separators,
the two numbers and the matched extension and running detection on it
again yields a match with the same prefix and the same two numbers. -/
theorem roundtrip_rule1 (fn a b : List Char) (i : Nat)
    (h : searchFrom matchConnectedAt fn = some (i, a, b)) :
    ∃ c0 c4 e,
      isSep c0 = true ∧ isSep c4 = true ∧ isExtStart e = true ∧
      find_double_numbers (fn.take i ++ c0 :: (a ++ c4 :: (b ++ '.' :: e))) =
        some (fn.take i, a, b) := by
  obtain ⟨hma, hnone⟩ := searchFrom_some matchConnectedAt fn i a b h
  obtain ⟨c0, a1, a2, a3, c4, b1, b2, b3, rest, hu, ha, hb, hc0, ha1, ha2, ha3,
    hc4, hb1, hb2, hb3, hext⟩ := matchConnectedAt_some _ a b hma
  subst ha hb
  refine ⟨c0, c4, rest.take (extLen rest), hc0, hc4,
    isExtStart_take_extLen rest hext, ?_⟩
  set e := rest.take (extLen rest) with he
  set r := fn.take i ++ c0 :: ([a1, a2, a3] ++ c4 :: ([b1, b2, b3] ++ '.' :: e))
    with hr
  have hilen : i < fn.length := by
    by_contra hle
    rw [List.drop_eq_nil_of_le (Nat.le_of_not_lt hle)] at hu
    exact List.noConfusion hu
  have hlen_take : (fn.take i).length = i := by
    rw [List.length_take]
    exact Nat.min_eq_left (Nat.le_of_lt hilen)
  have hre : r ++ rest.drop (extLen rest) = fn := by
    rw [hr, he]
    conv_rhs => rw [← List.take_append_drop i fn]
    rw [hu]
    simp [List.take_append_drop]
  have hmr : matchConnectedAt (r.drop i) = some ([a1, a2, a3], [b1, b2, b3]) := by
    have hdrop : r.drop i = c0 :: ([a1, a2, a3] ++ c4 :: ([b1, b2, b3] ++ '.' :: e)) := by
      have hdl := List.drop_left (fn.take i)
        (c0 :: ([a1, a2, a3] ++ c4 :: ([b1, b2, b3] ++ '.' :: e)))
      rw [hlen_take] at hdl
      rw [hr]
      exact hdl
    rw [hdrop]
    simpa using matchConnectedAt_cons c0 a1 a2 a3 c4 b1 b2 b3 e
      hc0 ha1 ha2 ha3 hc4 hb1 hb2 hb3 (isExtStart_take_extLen rest hext)
  have hnone_r : ∀ j, j < i → matchConnectedAt (r.drop j) = none := by
    intro j hj
    rcases hmj : matchConnectedAt (r.drop j) with _ | ⟨aj, bj⟩
    · rfl
    · exfalso
      have hjr : j ≤ r.length := by
        rw [hr, List.length_append, hlen_take]
        exact Nat.le_trans (Nat.le_of_lt hj) (Nat.le_add_right i _)
      have hsplit : (r ++ rest.drop (extLen rest)).drop j =
          r.drop j ++ rest.drop (extLen rest) :=
        List.drop_append_of_le_length hjr
      have hfull := matchConnectedAt_append (r.drop j) (rest.drop (extLen rest))
        aj bj hmj
      rw [← hsplit, hre] at hfull
      rw [hnone j hj] at hfull
      exact Option.noConfusion hfull
  have hsr : searchFrom matchConnectedAt r = some (i, [a1, a2, a3], [b1, b2, b3]) :=
    searchFrom_eq_some matchConnectedAt rfl r i _ _ hmr hnone_r
  have htake : r.take i = fn.take i := by
    have htl := List.take_left (fn.take i)
      (c0 :: ([a1, a2, a3] ++ c4 :: ([b1, b2, b3] ++ '.' :: e)))
    rw [hlen_take] at htl
    rw [hr]
    exact htl
  rw [find_double_numbers, hsr]
  show some (r.take i, [a1, a2, a3], [b1, b2, b3]) =
    some (fn.take i, [a1, a2, a3], [b1, b2, b3])
  rw [htake]

/-- Witness for C8 at GL51-006-007.jpg, matched at position 4. -/
theorem roundtrip_rule1_witness :
    ∃ c0 c4 e,
      isSep c0 = true ∧ isSep c4 = true ∧ isExtStart e = true ∧
      find_double_numbers (("GL51-006-007.jpg".toList).take 4 ++
        c0 :: ("006".toList ++ c4 :: ("007".toList ++ '.' :: e))) =
        some (("GL51-006-007.jpg".toList).take 4, "006".toList, "007".toList) :=
  roundtrip_rule1 ("GL51-006-007.jpg".toList) ("006".toList) ("007".toList) 4
    (by decide)

end ComicClean
